import Mathlib

/-!
# Verification of the PortOps AI repository

Shallow embedding of the repository's logic:

* `PDFEventExtractor.normalize_date` / `normalize_time` / `extract_events`
  (app3.py) — timestamp normalisation and regex-driven event extraction;
* `calculate_analysis_metrics` and the CSV branch of `download_file`
  (`PortOps AI/app.py`) — metrics and export;
* the timeline reconciliation algorithm, which the repository states only as
  natural-language instructions to an external AI model
  (`ENHANCED_SOF_EXTRACTION_PROMPT`), modelled here from the specification.

Strings are modelled as lists of ASCII characters (`List Char`), wrapped in
`String` at the API boundary.  Machine floats appearing in the source are
modelled with exact rationals; each such place carries a comment delimiting
where the models agree.
-/

namespace PortOps

/-- ASCII whitespace as recognised by Python's `str.strip` and regex `\s`
(space, tab, newline, carriage return, vertical tab, form feed). -/
def isPySpace (c : Char) : Bool :=
  decide (c.toNat = 32 ∨ c.toNat = 9 ∨ c.toNat = 10 ∨ c.toNat = 13 ∨
    c.toNat = 11 ∨ c.toNat = 12)

/-- ASCII decimal digit (`'0'` to `'9'`). -/
def isDig (c : Char) : Bool := decide (48 ≤ c.toNat ∧ c.toNat ≤ 57)

/-- Value of a digit character. -/
def digVal (c : Char) : ℕ := c.toNat - '0'.toNat

/-- Numeric value of a digit string, most significant digit first. -/
def digitsVal (l : List Char) : ℕ := l.foldl (fun a c => 10 * a + digVal c) 0

/-- Python `str.strip()` restricted to ASCII whitespace. -/
def pyStrip (l : List Char) : List Char :=
  ((l.dropWhile isPySpace).reverse.dropWhile isPySpace).reverse

/-- Python `str.upper()` on an ASCII character (`'a'`-`'z'` are 97-122). -/
def pyUpperChar (c : Char) : Char :=
  if 97 ≤ c.toNat ∧ c.toNat ≤ 122 then Char.ofNat (c.toNat - 32) else c

/-- Python `str.upper()` restricted to ASCII. -/
def pyUpper (l : List Char) : List Char := l.map pyUpperChar

/-- Python `str.split(sep)` for a one-character separator: splits at every
occurrence of `sep` and keeps empty pieces; always returns a nonempty list. -/
def pySplit (sep : Char) : List Char → List (List Char)
  | [] => [[]]
  | c :: rest =>
    if c = sep then [] :: pySplit sep rest
    else
      match pySplit sep rest with
      | [] => [[c]]
      | h :: t => (c :: h) :: t

/-- Python `int(str)`: optional surrounding whitespace, an optional sign, then
decimal digits.  CPython additionally accepts underscore digit separators
(`int('1_2') = 12`) and non-ASCII digits; the model treats those as
failures, so its failure set is strictly larger than CPython's.  Theorems
about successful parses are unaffected (the model accepts a subset, with
identical values); the one theorem that reasons from parse *failure*
(the amended C6) therefore carries an explicit `timeModelChar` hypothesis
confining it to the agreement region. -/
def pyIntCore : List Char → Option Int
  | [] => none
  | c :: rest =>
    if c = '+' then
      (if rest ≠ [] ∧ rest.all isDig = true then some (digitsVal rest) else none)
    else if c = '-' then
      (if rest ≠ [] ∧ rest.all isDig = true then some (-(digitsVal rest : Int))
       else none)
    else
      (if (c :: rest).all isDig = true then some (digitsVal (c :: rest))
       else none)

def pyInt? (l : List Char) : Option Int := pyIntCore (pyStrip l)

/-- The digit character for `d < 10`. -/
def digChar (d : ℕ) : Char := Char.ofNat ('0'.toNat + d)

/-- Fuel-driven digit rendering (structural recursion so that the kernel can
evaluate it; the fuel `n + 1` always suffices). -/
def natDigsAux : ℕ → ℕ → List Char
  | 0, _ => []
  | fuel + 1, n =>
    if n < 10 then [digChar n] else natDigsAux fuel (n / 10) ++ [digChar (n % 10)]

/-- Decimal digits of a natural number, most significant first (`"0"` for 0). -/
def natDigs (n : ℕ) : List Char := natDigsAux (n + 1) n

/-- Decimal rendering of an integer: sign followed by digits. -/
def intDigs (n : Int) : List Char :=
  if n < 0 then '-' :: natDigs n.natAbs else natDigs n.toNat

/-- Python's `f"{n:02d}"`: decimal rendering zero-padded to overall width 2
(the sign counts toward the width, so `-5` prints as `"-5"`). -/
def fmt02 (n : Int) : List Char :=
  let s := intDigs n
  if s.length = 1 then '0' :: s else s

/-- Models `re.sub(r'\s*(HRS|HOURS?)\s*$', '', s)` from `normalize_time`: when
the string ends with `HOURS`, `HOUR`, or `HRS`, that word and the whitespace
immediately before it are removed.  The pattern is end-anchored and cannot
match the empty string, so at most one replacement ever happens, and because
the caller stripped the string first the trailing `\s*` is always empty. -/
def stripHrs (l : List Char) : List Char :=
  let r := l.reverse
  if r.take 5 = ['S', 'R', 'U', 'O', 'H'] then
    ((r.drop 5).dropWhile isPySpace).reverse
  else if r.take 4 = ['R', 'U', 'O', 'H'] then
    ((r.drop 4).dropWhile isPySpace).reverse
  else if r.take 3 = ['S', 'R', 'H'] then
    ((r.drop 3).dropWhile isPySpace).reverse
  else l

/-- Models `minutes = int(float('0.' + m) * 60)` for the fractional string `m`,
modelled with exact rationals: `float('0.' + m)` is `val(m) / 10 ^ |m|`, and
`int` truncates (here: floors, the value being nonnegative).  For fractional
strings of at most two digits — all that the extractor's time pattern
`\d{1,2}\.\d{2}` produces — the double-precision computation agrees exactly
with this rational value.  CPython's `float` additionally accepts exponent
and underscore forms (`float('0.3E1') = 3.0`, `float('0.3_0') = 0.3`) that
the model reports as failures, so the model's failure set is strictly larger
than CPython's; the one theorem that reasons from parse *failure* (the
amended C6) therefore carries an explicit `timeModelChar` hypothesis
confining it to the agreement region. -/
def fracMinutes? (m : List Char) : Option Int :=
  if m.all isDig then some ((digitsVal m * 60) / 10 ^ m.length : ℕ) else none

/-- The `try` body of `normalize_time`'s decimal branch:
`hours, minutes = time_str.split('.'); int(hours); int(float('0.'+minutes)*60)`.
Any failure (including the tuple unpack failing when the string does not have
exactly one dot) makes the whole branch fall through, like the bare `except`. -/
def dotParse? (u : List Char) : Option (Int × Int) :=
  match pySplit '.' u with
  | [a, b] => do
    let h ← pyInt? a
    let m ← fracMinutes? b
    pure (h, m)
  | _ => none

/-- The `try` body of `normalize_time`'s colon branch:
`parts = time_str.split(':'); int(parts[0]); int(parts[1])`. -/
def colonParse? (u : List Char) : Option (Int × Int) :=
  match pySplit ':' u with
  | a :: b :: _ => do
    let h ← pyInt? a
    let m ← pyInt? b
    pure (h, m)
  | _ => none

/-- Renders `f"{hours:02d}:{minutes:02d}"`. -/
def renderHM (h m : Int) : List Char := fmt02 h ++ ':' :: fmt02 m

/-- Embeds `PDFEventExtractor.normalize_time` (app3.py, lines 112-139), on the
character-list representation: strip, uppercase, remove a trailing
`HRS`/`HOURS?` suffix, then try the decimal branch, then the colon branch,
and otherwise return the (preprocessed) string unchanged. -/
def normTimeL (l : List Char) : List Char :=
  let u := stripHrs (pyUpper (pyStrip l))
  match (if u.contains '.' then dotParse? u else none) with
  | some (h, m) => renderHM h m
  | none =>
    match (if u.contains ':' then colonParse? u else none) with
    | some (h, m) => renderHM h m
    | none => u

/-- Embeds `PDFEventExtractor.normalize_time` (app3.py, lines 112-139). -/
def normalize_time (s : String) : String := ⟨normTimeL s.data⟩

/-- Holds (as `true`) iff `normalize_time` returns through one of its two successful
parse branches (decimal-hour or colon) rather than falling through. -/
def timeParsed (s : String) : Bool :=
  let u := stripHrs (pyUpper (pyStrip s.data))
  (u.contains '.' && (dotParse? u).isSome) ||
    (u.contains ':' && (colonParse? u).isSome)

/-- Characters on which the string model agrees exactly with CPython's
`str.strip`, `str.upper`, regex `\s`, `int` and the date machinery: ASCII,
excluding the control characters 0x1c-0x1f, which CPython's `str.strip` and
regex `\s` treat as whitespace but the model does not. -/
abbrev modelChar (c : Char) : Prop :=
  c.toNat < 128 ∧ ¬(28 ≤ c.toNat ∧ c.toNat ≤ 31)

/-- Characters on which the model's time-parse failure coincides with
CPython's: `modelChar` minus underscore and the exponent letters, because
CPython's `int` accepts underscore digit separators (`int('1_2') = 12`) and
its `float` accepts underscore and exponent forms (`float('0.3E1') = 3.0`,
`float('0.3_0') = 0.3`) that the model reports as failures. -/
abbrev timeModelChar (c : Char) : Prop :=
  modelChar c ∧ c.toNat ≠ 95 ∧ c.toNat ≠ 69 ∧ c.toNat ≠ 101

/-- Generic first-success combinator (the behaviour of a chain of
`try/except: continue` attempts, and of ordered regex alternation). -/
def firstSome : List α → (α → Option β) → Option β
  | [], _ => none
  | x :: xs, f =>
    match f x with
    | some b => some b
    | none => firstSome xs f

/-- The date fields filled in by one `strptime` match. -/
structure DV where
  y : ℕ
  m : ℕ
  d : ℕ
deriving DecidableEq

/-- One element of a compiled `strptime` format, as `_strptime.TimeRE`
translates it: `%Y` becomes `\d{4}`, `%m` becomes `(1[0-2]|0[1-9]|[1-9])`,
`%d` becomes `(3[01]|[12]\d|0[1-9]|[1-9])`, `%B`/`%b` become alternations of
the (C-locale English) month names sorted by length descending, a literal
matches itself, and whitespace in the format becomes `\s+`. -/
inductive DElem
  | yr4
  | mon2
  | day2
  | monFull
  | monAbbr
  | lit (c : Char)
  | ws

/-- Full month names in `TimeRE`'s alternation order (sorted by length,
descending, stable), paired with their month numbers.  Matching is
case-insensitive, so the names are stored uppercased. -/
def fullMonths : List (List Char × ℕ) :=
  [("SEPTEMBER".data, 9), ("FEBRUARY".data, 2), ("NOVEMBER".data, 11),
   ("DECEMBER".data, 12), ("JANUARY".data, 1), ("OCTOBER".data, 10),
   ("AUGUST".data, 8), ("MARCH".data, 3), ("APRIL".data, 4),
   ("JUNE".data, 6), ("JULY".data, 7), ("MAY".data, 5)]

/-- Abbreviated month names (all the same length, so alternation order is the
calendar order), paired with their month numbers. -/
def abbrMonths : List (List Char × ℕ) :=
  [("JAN".data, 1), ("FEB".data, 2), ("MAR".data, 3), ("APR".data, 4),
   ("MAY".data, 5), ("JUN".data, 6), ("JUL".data, 7), ("AUG".data, 8),
   ("SEP".data, 9), ("OCT".data, 10), ("NOV".data, 11), ("DEC".data, 12)]

/-- Month-name alternatives matching a prefix of `l`, case-insensitively, in
alternation order.  (No month name is a prefix of another, so at most one
entry survives, but the order is kept faithful to the compiled regex.) -/
def monthOpts (names : List (List Char × ℕ)) (l : List Char) :
    List (ℕ × (DV → DV)) :=
  names.filterMap fun nv =>
    if pyUpper (l.take nv.1.length) = nv.1 then
      some (nv.1.length, fun (v : DV) => { v with m := nv.2 })
    else none

/-- Field updates used by the format elements. -/
def yupd (n : ℕ) : DV → DV := fun v => { v with y := n }

def mupd (n : ℕ) : DV → DV := fun v => { v with m := n }

def dupd (n : ℕ) : DV → DV := fun v => { v with d := n }

def noupd : DV → DV := fun v => v

/-- The ways one format element can match a prefix of the input, as
`(consumed length, field update)` pairs in regex backtracking priority order
(alternation order; greedy repetition tries longer matches first). -/
def dElemOpts : DElem → List Char → List (ℕ × (DV → DV))
  | .yr4, a :: b :: c :: d :: _ =>
    if isDig a && isDig b && isDig c && isDig d then
      [(4, yupd (digitsVal [a, b, c, d]))]
    else []
  | .yr4, _ => []
  | .mon2, a :: b :: _ =>
    (if a = '1' && ('0' ≤ b && b ≤ '2') then
      [(2, mupd (10 + digVal b))] else []) ++
    (if a = '0' && ('1' ≤ b && b ≤ '9') then
      [(2, mupd (digVal b))] else []) ++
    (if '1' ≤ a && a ≤ '9' then
      [(1, mupd (digVal a))] else [])
  | .mon2, [a] =>
    if '1' ≤ a && a ≤ '9' then [(1, mupd (digVal a))] else []
  | .mon2, [] => []
  | .day2, a :: b :: _ =>
    (if a = '3' && (b = '0' || b = '1') then
      [(2, dupd (30 + digVal b))] else []) ++
    (if ('1' ≤ a && a ≤ '2') && isDig b then
      [(2, dupd (10 * digVal a + digVal b))] else []) ++
    (if a = '0' && ('1' ≤ b && b ≤ '9') then
      [(2, dupd (digVal b))] else []) ++
    (if '1' ≤ a && a ≤ '9' then
      [(1, dupd (digVal a))] else [])
  | .day2, [a] =>
    if '1' ≤ a && a ≤ '9' then [(1, dupd (digVal a))] else []
  | .day2, [] => []
  | .monFull, l => monthOpts fullMonths l
  | .monAbbr, l => monthOpts abbrMonths l
  | .lit c, a :: _ => if a = c then [(1, noupd)] else []
  | .lit _, [] => []
  | .ws, l =>
    ((List.range (l.takeWhile isPySpace).length).reverse).map
      fun k => (k + 1, noupd)

/-- Backtracking match of a format-element sequence against a prefix of the
input: the first successful path in priority order, returning the consumed
length and the collected fields.  Like `re.match`, it does not itself require
the whole input to be consumed. -/
def dMatch : List DElem → List Char → DV → Option (ℕ × DV)
  | [], _, v => some (0, v)
  | e :: es, l, v =>
    firstSome (dElemOpts e l) fun ko =>
      (dMatch es (l.drop ko.1) (ko.2 v)).map fun r => (ko.1 + r.1, r.2)

def leapYear (y : ℕ) : Bool := y % 4 = 0 && (!(y % 100 = 0) || y % 400 = 0)

def daysInMonth (y m : ℕ) : ℕ :=
  if m = 2 then (if leapYear y then 29 else 28)
  else if m = 4 || m = 6 || m = 9 || m = 11 then 30
  else 31

/-- Models `datetime.strptime(l, fmt)`: regex match from the start, then the check
that the match spans the whole string, then `datetime` construction — which
re-raises (here: `none`) for day numbers exceeding the month length and for
year 0 (`datetime.MINYEAR` is 1; the regex already bounds the year at 9999,
the month at 12 and the day at 31). -/
def strptimeFmt? (fmt : List DElem) (l : List Char) : Option DV :=
  match dMatch fmt l ⟨0, 0, 0⟩ with
  | some (k, v) =>
    if k = l.length then
      if 1 ≤ v.y ∧ v.d ≤ daysInMonth v.y v.m then some v else none
    else none
  | none => none

/-- Models `date_obj.strftime('%Y-%m-%d')`: zero-padded `YYYY-MM-DD`. -/
def fmtDate (v : DV) : List Char :=
  (List.replicate (4 - (natDigs v.y).length) '0' ++ natDigs v.y) ++
    '-' :: (List.replicate (2 - (natDigs v.m).length) '0' ++ natDigs v.m) ++
    '-' :: (List.replicate (2 - (natDigs v.d).length) '0' ++ natDigs v.d)

/-- The `formats` list of `normalize_date` (app3.py, lines 84-92), compiled:
`'%Y-%m-%d'`, `'%d-%m-%Y'`, `'%m-%d-%Y'`, `'%d %B %Y'`, `'%B %d, %Y'`,
`'%d %b %Y'`, `'%b %d, %Y'`. -/
def dateFormats : List (List DElem) :=
  [[.yr4, .lit '-', .mon2, .lit '-', .day2],
   [.day2, .lit '-', .mon2, .lit '-', .yr4],
   [.mon2, .lit '-', .day2, .lit '-', .yr4],
   [.day2, .ws, .monFull, .ws, .yr4],
   [.monFull, .ws, .day2, .lit ',', .ws, .yr4],
   [.day2, .ws, .monAbbr, .ws, .yr4],
   [.monAbbr, .ws, .day2, .lit ',', .ws, .yr4]]

/-- One `for fmt in formats: try: return strptime(...).strftime(...)` loop. -/
def tryFormats (l : List Char) : Option (List Char) :=
  firstSome dateFormats fun fmt => (strptimeFmt? fmt l).map fmtDate

/-- Models `re.sub(r'(\d+)(st|nd|rd|th)', r'\1', ·)`: every maximal digit run
immediately followed by a lowercase ordinal suffix loses that suffix.  The
boolean argument records whether the previous character was a digit, which is
exactly when a two-character suffix starting here can complete a match. -/
def ordStripGo : Bool → List Char → List Char
  | _, [] => []
  | _, [c] => [c]
  | prevDig, a :: b :: rest =>
    if prevDig &&
        ((a = 's' && b = 't') || (a = 'n' && b = 'd') ||
          (a = 'r' && b = 'd') || (a = 't' && b = 'h')) then
      ordStripGo false rest
    else a :: ordStripGo (isDig a) (b :: rest)

def ordStrip (l : List Char) : List Char := ordStripGo false l

/-- Embeds `PDFEventExtractor.normalize_date` (app3.py, lines 79-110), on the
character-list representation: strip, try all formats, strip ordinal
suffixes, try all formats again, and otherwise return the (stripped,
ordinal-stripped) string itself. -/
def normDateL (l : List Char) : List Char :=
  let d0 := pyStrip l
  match tryFormats d0 with
  | some out => out
  | none =>
    let d1 := ordStrip d0
    match tryFormats d1 with
    | some out => out
    | none => d1

/-- Embeds `PDFEventExtractor.normalize_date` (app3.py, lines 79-110). -/
def normalize_date (s : String) : String := ⟨normDateL s.data⟩

/-! ## The extractor's regular expressions (`re.search`) -/

/-- ASCII word character (`\w`: letters, digits, underscore). -/
def isWord (c : Char) : Bool :=
  isDig c || decide (97 ≤ c.toNat ∧ c.toNat ≤ 122) ||
    decide (65 ≤ c.toNat ∧ c.toNat ≤ 90) || decide (c.toNat = 95)

/-- ASCII letter. -/
def isAlpha (c : Char) : Bool :=
  decide (97 ≤ c.toNat ∧ c.toNat ≤ 122) || decide (65 ≤ c.toNat ∧ c.toNat ≤ 90)

/-- Python `str.lower()` on an ASCII character. -/
def toLowerC (c : Char) : Char :=
  if 65 ≤ c.toNat ∧ c.toNat ≤ 90 then Char.ofNat (c.toNat + 32) else c

/-- One element of a compiled extractor pattern: a literal (optionally
case-insensitive, for searches made with `re.IGNORECASE`), a character class
with counted greedy repetition (`\d{4}`, `\d{1,2}`, `\s+`, `\s*`, `\w+`,
`,?`), or a greedy `.*` (`.` does not match a newline). -/
inductive RElem
  | lit (cs : List Char) (ci : Bool)
  | cls (p : Char → Bool) (lo : ℕ) (hi : Option ℕ)
  | dotStar

/-- The lengths a single element can consume from the front of `l`, in regex
backtracking priority order (greedy repetition: longest first). -/
def rElemOpts : RElem → List Char → List ℕ
  | .lit cs false, l => if l.take cs.length = cs then [cs.length] else []
  | .lit cs true, l =>
    if pyUpper (l.take cs.length) = pyUpper cs then [cs.length] else []
  | .cls p lo hi, l =>
    let run := (l.takeWhile p).length
    let top := match hi with | some h => min run h | none => run
    if top < lo then [] else (List.range (top + 1 - lo)).map fun i => top - i
  | .dotStar, l =>
    let run := (l.takeWhile fun c => !(c = '\n')).length
    (List.range (run + 1)).map fun i => run - i

/-- Backtracking match of a pattern against a prefix of the input, returning
the consumed length of the first successful path in priority order. -/
def rMatch : List RElem → List Char → Option ℕ
  | [], _ => some 0
  | e :: es, l =>
    firstSome (rElemOpts e l) fun k => (rMatch es (l.drop k)).map (k + ·)

/-- Models `re.search`: the leftmost position at which the pattern matches, with the
length of the (first, by backtracking priority) match there. -/
def rSearch (pat : List RElem) : List Char → Option (ℕ × ℕ)
  | [] => (rMatch pat []).map fun k => (0, k)
  | c :: rest =>
    match rMatch pat (c :: rest) with
    | some k => some (0, k)
    | none => (rSearch pat rest).map fun r => (r.1 + 1, r.2)

/-- Models `re.search(...).group()`: the matched substring. -/
def searchGroup (pat : List RElem) (l : List Char) : Option (List Char) :=
  (rSearch pat l).map fun ik => (l.drop ik.1).take ik.2

/-- Compiles `self.event_patterns` (app3.py, lines 17-33), searched with
`re.IGNORECASE`. -/
def eventPatterns : List (List RElem) :=
  [[.lit "notice of readiness".data true],
   [.lit "dropped anchor".data true],
   [.lit "pilot on board".data true],
   [.lit "free pratique granted".data true],
   [.lit "commence".data true, .dotStar, .lit "survey".data true],
   [.lit "cargo operation".data true],
   [.lit "vessel sailed".data true],
   [.lit "arrived pilot station".data true],
   [.lit "nor tendered".data true],
   [.lit "first line ashore".data true],
   [.lit "all fast".data true],
   [.lit "cargo documentation".data true],
   [.lit "eta next port".data true],
   [.lit "completed".data true, .dotStar, .lit "survey".data true],
   [.lit "commenced".data true, .dotStar, .lit "operation".data true]]

/-- Compiles `self.date_patterns` (app3.py, lines 36-41), searched case-sensitively:
`\d{4}-\d{2}-\d{2}`, `\d{2}-\d{2}-\d{4}`, `\d{1,2}th\s+\w+\s+\d{4}`,
`\w+\s+\d{1,2},?\s+\d{4}`. -/
def datePatterns : List (List RElem) :=
  [[.cls isDig 4 (some 4), .lit "-".data false, .cls isDig 2 (some 2),
    .lit "-".data false, .cls isDig 2 (some 2)],
   [.cls isDig 2 (some 2), .lit "-".data false, .cls isDig 2 (some 2),
    .lit "-".data false, .cls isDig 4 (some 4)],
   [.cls isDig 1 (some 2), .lit "th".data false, .cls isPySpace 1 none,
    .cls isWord 1 none, .cls isPySpace 1 none, .cls isDig 4 (some 4)],
   [.cls isWord 1 none, .cls isPySpace 1 none, .cls isDig 1 (some 2),
    .cls (fun c => c = ',') 0 (some 1), .cls isPySpace 1 none,
    .cls isDig 4 (some 4)]]

/-- Compiles `self.time_patterns` (app3.py, lines 44-48), searched case-sensitively:
`\d{2}:\d{2}`, `\d{1,2}\.\d{2}`, `\d{2}\s*HRS`. -/
def timePatterns : List (List RElem) :=
  [[.cls isDig 2 (some 2), .lit ":".data false, .cls isDig 2 (some 2)],
   [.cls isDig 1 (some 2), .lit ".".data false, .cls isDig 2 (some 2)],
   [.cls isDig 2 (some 2), .cls isPySpace 0 none, .lit "HRS".data false]]

/-- Models `re.sub(r'\s+', ' ', ·)`: every whitespace run becomes a single space.
The boolean records whether the previous character was whitespace. -/
def collapseWsGo : Bool → List Char → List Char
  | _, [] => []
  | prevSp, c :: rest =>
    if isPySpace c then
      if prevSp then collapseWsGo true rest else ' ' :: collapseWsGo true rest
    else c :: collapseWsGo false rest

/-- Python `str.title()` restricted to ASCII: a letter is uppercased when the
previous character is not a letter and lowercased otherwise. -/
def pyTitleGo : Bool → List Char → List Char
  | _, [] => []
  | prevAl, c :: rest =>
    if isAlpha c then
      (if prevAl then toLowerC c else pyUpperChar c) :: pyTitleGo true rest
    else c :: pyTitleGo false rest

def pyTitle (l : List Char) : List Char := pyTitleGo false l

/-- Embeds `PDFEventExtractor.clean_event_name` (app3.py, lines 211-222): collapse
whitespace, strip, and return the title-cased match of the pattern (or the
title-cased whole line when the pattern no longer matches). -/
def clean_event_name (line : List Char) (pat : List RElem) : List Char :=
  let l2 := pyStrip (collapseWsGo false line)
  match searchGroup pat l2 with
  | some g => pyTitle g
  | none => pyTitle l2

/-- One row of `extract_events`' result
(`{'Event': ..., 'Date': ..., 'Time': ...}`). -/
structure EventRow where
  event : List Char
  date : List Char
  time : List Char
deriving DecidableEq

/-- The first of the given patterns that matches somewhere in `l`, with its
matched substring (`for pattern in ...: match = re.search(...); if match:
... = match.group(); break`). -/
def searchFirst (pats : List (List RElem)) (l : List Char) : Option (List Char) :=
  firstSome pats fun p => searchGroup p l

/-- The assembled event row: found tokens are normalised, missing ones become
`'N/A'`. -/
def mkRow (name : List Char) (dateM timeM : Option (List Char)) : EventRow :=
  { event := name,
    date := match dateM with | some d => normDateL d | none => "N/A".data,
    time := match timeM with | some t => normTimeL t | none => "N/A".data }

/-- The body of `extract_events`' per-line loop (app3.py, lines 146-207).
When the line is nonempty and matches an event pattern but carries no date or
no time, the code looks the *stripped* line up in the list of *unstripped*
lines (`line_idx = lines.index(line)`): when the stripped line is absent,
`list.index` raises `ValueError` — modelled as `Except.error` carrying the
missing item — and the whole extraction aborts. -/
def processLine (lines : List (List Char)) (rawLine : List Char) :
    Except (List Char) (Option EventRow) :=
  let line := pyStrip rawLine
  if line.isEmpty then .ok none
  else
    match eventPatterns.find? fun p => (rSearch p line).isSome with
    | none => .ok none
    | some pat =>
      let name := clean_event_name line pat
      let dateM := searchFirst datePatterns line
      let timeM := searchFirst timePatterns line
      if dateM.isNone || timeM.isNone then
        match lines.findIdx? fun x => x = line with
        | none => .error line
        | some idx =>
          let a := idx - 2
          let b := min lines.length (idx + 3)
          let ctx := List.intercalate [' '] ((lines.drop a).take (b - a))
          let dateM := match dateM with
            | some d => some d
            | none => searchFirst datePatterns ctx
          let timeM := match timeM with
            | some t => some t
            | none => searchFirst timePatterns ctx
          .ok (some (mkRow name dateM timeM))
      else .ok (some (mkRow name dateM timeM))

/-- The loop of `extract_events` over all lines, propagating the uncaught
`ValueError`. -/
def extractGo (lines : List (List Char)) : List (List Char) →
    Except (List Char) (List EventRow)
  | [] => .ok []
  | r :: rest => do
    let e? ← processLine lines r
    let es ← extractGo lines rest
    match e? with
    | some e => pure (e :: es)
    | none => pure es

/-- Embeds `PDFEventExtractor.extract_events` (app3.py, lines 141-209):
`text.split('\n')`, then the per-line extraction.  A raised `ValueError`
surfaces as `Except.error` carrying the item that `list.index` failed to
find. -/
def extract_events (text : String) : Except String (List EventRow) :=
  let lines := pySplit '\n' text.data
  match extractGo lines lines with
  | .ok es => .ok es
  | .error m => .error ⟨m⟩

/-! ## `app.py`: analysis metrics and CSV export -/

/-- Round half to even on rationals: on a tie Python's `round` picks the even
integer, otherwise the nearest one. -/
def roundHE (q : ℚ) : ℤ :=
  if q - Int.floor q = 1 / 2 then
    (if Even (Int.floor q) then Int.floor q else Int.floor q + 1)
  else round q

/-- Python `round(x, 2)` modelled on exact rationals.  (Python rounds the
binary floating-point value; the models agree whenever the quotient is
representable or not within one double-precision ulp of a two-decimal tie.) -/
def pyRound2 (q : ℚ) : ℚ := (roundHE (q * 100) : ℚ) / 100

/-- The value of `calculate_analysis_metrics`, minus the wall-clock
`parsing_timestamp` field, which is outside the model. -/
structure AnalysisMetrics where
  total_events_found : ℕ
  successfully_parsed : ℕ
  skipped_events : ℕ
  success_rate : ℚ
deriving DecidableEq

/-- Embeds `calculate_analysis_metrics` (`PortOps AI/app.py`, lines 140-157).  Its
two inputs are the function's `extracted_data.get("events", [])` and
`extracted_data.get("unresolved_events", [])` reads; only their lengths are
used.  The float quotient `successfully_parsed / total_events_found * 100`
is modelled as an exact rational. -/
def calculate_analysis_metrics (events : List α) (unresolved_events : List β) :
    AnalysisMetrics :=
  let total := events.length + unresolved_events.length
  let parsed := events.length
  let skipped := unresolved_events.length
  let rate : ℚ := if 0 < total then (parsed : ℚ) / (total : ℚ) * 100 else 0
  { total_events_found := total
    successfully_parsed := parsed
    skipped_events := skipped
    success_rate := pyRound2 rate }

/-- A Python dict with string keys and values, in insertion order. -/
abbrev PyDict := List (String × String)

/-- CSV field rendering with the default `QUOTE_MINIMAL` dialect: a field
containing the delimiter, the quote character, or a line break is quoted,
with inner quotes doubled. -/
def csvField (s : String) : String :=
  if s.data.any fun c => c = ',' || c = '"' || c = '\n' || c = '\r' then
    ⟨'"' :: s.data.foldr
      (fun c acc => if c = '"' then '"' :: '"' :: acc else c :: acc) ['"']⟩
  else s

/-- One CSV record with the writer's default `\r\n` terminator. -/
def csvRecord (fields : List String) : String :=
  String.intercalate "," (fields.map csvField) ++ "\r\n"

/-- Models `csv.DictWriter.writerow`: a row whose dict has a key outside the
fieldnames raises `ValueError`; a missing key is written as the empty
`restval`. -/
def csvRow (fieldnames : List String) (d : PyDict) : Except String String :=
  if d.any fun kv => !fieldnames.contains kv.1 then .error "ValueError"
  else .ok (csvRecord (fieldnames.map fun f => (List.lookup f d).getD ""))

/-- The CSV branch of `download_file` (`PortOps AI/app.py`, lines 267-274):
with no events the response body is empty; otherwise a `DictWriter` is built
with `fieldnames=events[0].keys()`, writes the header, then every event row. -/
def download_csv (events : List PyDict) : Except String String :=
  match events with
  | [] => .ok ""
  | d0 :: rest =>
    let fieldnames := d0.map fun kv => kv.1
    match (d0 :: rest).mapM (csvRow fieldnames) with
    | .ok rows => .ok (csvRecord fieldnames ++ String.join rows)
    | .error e => .error e

/-! ## The timeline reconciler (modelled from the specification)

The reconciliation algorithm is not present in the repository's code: it
exists only as natural-language prompt text
(`ENHANCED_SOF_EXTRACTION_PROMPT`, `PortOps AI/app.py` lines 41-131)
executed by an external AI model.  The definitions below are therefore
modelled from the specification, §4.3. -/

/-- Modelled from the spec: a classified, normalised reconciler input
candidate (spec §3, §4.2) — the missing reconciler's input type.  Instants
are natural numbers (e.g. minutes since an epoch); charter-party-excluded
entries have already been dropped by the classifier. -/
structure Candidate where
  name : String
  start_time? : Option ℕ
  end_time? : Option ℕ
  isRest : Bool
deriving DecidableEq

/-- Modelled from the spec (§4.3 step 1): a candidate's anchor instant is its
start time if known, else its end time if known. -/
def anchorKey? (c : Candidate) : Option ℕ :=
  match c.start_time? with
  | some s => some s
  | none => c.end_time?

/-- A candidate in flight through the reconciler's passes, carrying its sort
anchor (fixed at entry) alongside the current, possibly filled-in bounds. -/
structure Item where
  name : String
  start_time? : Option ℕ
  end_time? : Option ℕ
  isRest : Bool
  anchor : ℕ
deriving DecidableEq

def mkItem (c : Candidate) : Item :=
  ⟨c.name, c.start_time?, c.end_time?, c.isRest, (anchorKey? c).getD 0⟩

/-- Modelled from the spec (§4.3 step 1): candidates with an anchor. -/
def anchoredPart (input : List Candidate) : List Candidate :=
  input.filter fun c => (anchorKey? c).isSome

/-- Modelled from the spec (§4.3 steps 1 and 5): candidates with no anchor,
deferred and always unresolved with `no_context`. -/
def unanchoredPart (input : List Candidate) : List Candidate :=
  input.filter fun c => !(anchorKey? c).isSome

/-- Modelled from the spec (§4.3 step 1): stable ascending sort by anchor. -/
def sortItems (l : List Item) : List Item :=
  l.insertionSort fun a b => a.anchor ≤ b.anchor

/-- Modelled from the spec (§4.3 step 2), the forward pass: walking left to
right with `last_end` the most recently seen known end time (undefined before
the first candidate with a known end), a candidate missing its start time
receives `last_end` when defined. -/
def fwdFill (last : Option ℕ) : List Item → List Item
  | [] => []
  | c :: rest =>
    let c' := match c.start_time? with
      | none => { c with start_time? := last }
      | some _ => c
    let last' := match c.end_time? with
      | some e => some e
      | none => last
    c' :: fwdFill last' rest

/-- Modelled from the spec (§4.3 step 3), the backward pass: walking right to
left with `next_start` the nearest known start time to the right (including
starts filled by the forward pass), a candidate missing its end time receives
`next_start` when defined.  Returns the filled list together with the
`next_start` value propagated past the head. -/
def bwdFill : List Item → List Item × Option ℕ
  | [] => ([], none)
  | c :: rest =>
    let r := bwdFill rest
    let c' := match c.end_time? with
      | none => { c with end_time? := r.2 }
      | some _ => c
    let next' := match c.start_time? with
      | some s => some s
      | none => r.2
    (c' :: r.1, next')

/-- One step of the rest-period clamp: when `x` is a rest period with a known
end and the immediately following event's start would precede it, that start
is raised to the rest's end. -/
def clampNext (x y : Item) : Item :=
  if x.isRest then
    match x.end_time?, y.start_time? with
    | some e, some s => if s < e then { y with start_time? := some e } else y
    | _, _ => y
  else y

/-- Modelled from the spec (§4.3 step 4): the left-to-right rest-period clamp
over adjacent pairs of the sorted, filled sequence. -/
def clampGo (x : Item) : List Item → List Item
  | [] => [x]
  | y :: rest => x :: clampGo (clampNext x y) rest

def clampRests : List Item → List Item
  | [] => []
  | x :: rest => clampGo x rest

/-- Modelled from the spec (§3, §4.3 step 5): an unresolved outcome's reason. -/
inductive UnresReason
  | missing_start
  | missing_end
  | zero_duration
  | no_context
deriving DecidableEq

/-- Modelled from the spec (§3): a resolved event; a rest period is a
resolved event with the rest flag. -/
structure ResolvedEvent where
  name : String
  start_time : ℕ
  end_time : ℕ
  isRest : Bool
deriving DecidableEq

/-- Modelled from the spec (§3): an unresolved event carries no timestamps. -/
structure UnresolvedEvent where
  name : String
  reason : UnresReason
deriving DecidableEq

/-- Modelled from the spec (§4.3 step 5): a candidate becomes resolved only
when both bounds are now known and the start differs from the end. -/
def finalizeItem? (it : Item) : Option ResolvedEvent :=
  match it.start_time?, it.end_time? with
  | some s, some e => if s ≠ e then some ⟨it.name, s, e, it.isRest⟩ else none
  | _, _ => none

/-- Modelled from the spec (§4.3 step 5): the unresolved outcome and its
reason for an anchored candidate that does not finalize. -/
def unresolveItem? (it : Item) : Option UnresolvedEvent :=
  match it.start_time?, it.end_time? with
  | some s, some e => if s = e then some ⟨it.name, .zero_duration⟩ else none
  | none, _ => some ⟨it.name, .missing_start⟩
  | some _, none => some ⟨it.name, .missing_end⟩

/-- Modelled from the spec (§4.3 steps 1-4): the anchored candidates, sorted
by anchor, after the forward fill, the backward fill, and the rest clamp. -/
def processedOf (input : List Candidate) : List Item :=
  clampRests (bwdFill (fwdFill none (sortItems ((anchoredPart input).map mkItem)))).1

/-- Modelled from the spec (§4.3): the whole reconciler — the resolved
timeline in processed order, and the unresolved events (anchored failures in
processed order, then the unanchored candidates with `no_context`). -/
def reconcile (input : List Candidate) :
    List ResolvedEvent × List UnresolvedEvent :=
  let proc := processedOf input
  (proc.filterMap finalizeItem?,
   proc.filterMap unresolveItem? ++
     (unanchoredPart input).map fun c => ⟨c.name, .no_context⟩)

/-- All timestamp token values appearing in the input document. -/
def tokenVals (input : List Candidate) : List ℕ :=
  input.foldr
    (fun c acc => c.start_time?.toList ++ c.end_time?.toList ++ acc) []

/-- Both current bounds of an item (when known) lie in the value set `S` —
the provenance invariant carried through the reconciler's passes. -/
def ItemVals (S : List ℕ) (it : Item) : Prop :=
  (∀ v, it.start_time? = some v → v ∈ S) ∧
    (∀ v, it.end_time? = some v → v ∈ S)

instance : IsTotal Item fun a b => a.anchor ≤ b.anchor :=
  ⟨fun a b => Nat.le_total a.anchor b.anchor⟩

instance : IsTrans Item fun a b => a.anchor ≤ b.anchor :=
  ⟨fun _ _ _ => Nat.le_trans⟩

/-! ## Supporting lemmas: strings and rendering round-trips -/

lemma dropWhile_eq_self_of_false {p : Char → Bool} :
    ∀ {l : List Char}, (∀ c ∈ l, p c = false) → l.dropWhile p = l
  | [], _ => rfl
  | c :: _, h => by
    rw [List.dropWhile_cons, h c (by simp)]
    simp

lemma pyStrip_eq_self {l : List Char} (h : ∀ c ∈ l, isPySpace c = false) :
    pyStrip l = l := by
  unfold pyStrip
  rw [dropWhile_eq_self_of_false h,
    dropWhile_eq_self_of_false fun c hc => h c (List.mem_reverse.mp hc),
    List.reverse_reverse]

lemma pyUpperChar_eq_self {c : Char} (h : c.toNat < 97) : pyUpperChar c = c := by
  unfold pyUpperChar
  rw [if_neg (by omega)]

lemma pyUpper_eq_self {l : List Char} (h : ∀ c ∈ l, c.toNat < 97) :
    pyUpper l = l := by
  unfold pyUpper
  rw [List.map_congr_left fun c hc => pyUpperChar_eq_self (h c hc)]
  exact List.map_id' l

lemma stripHrs_eq_self {l : List Char}
    (h : ∀ c t, l.reverse = c :: t → c.toNat ≠ 83 ∧ c.toNat ≠ 82) :
    stripHrs l = l := by
  cases hr : l.reverse with
  | nil => simp [stripHrs, hr]
  | cons c t =>
    obtain ⟨h83, h82⟩ := h c t hr
    have hcS : c ≠ 'S' := fun e => h83 (by rw [e]; rfl)
    have hcR : c ≠ 'R' := fun e => h82 (by rw [e]; rfl)
    simp only [stripHrs, hr, List.take_succ_cons]
    rw [if_neg (by simp [hcS]), if_neg (by simp [hcR]), if_neg (by simp [hcS])]

lemma toNat_of_isDig {c : Char} (h : isDig c = true) :
    48 ≤ c.toNat ∧ c.toNat ≤ 57 := by
  simpa [isDig] using h

lemma isPySpace_of_isDig {c : Char} (h : isDig c = true) :
    isPySpace c = false := by
  have := toNat_of_isDig h
  simp [isPySpace]
  omega

lemma contains_eq_false_of_not_mem {l : List Char} {a : Char} (h : a ∉ l) :
    l.contains a = false := by
  cases hc : l.contains a
  · rfl
  · exact absurd (List.mem_of_elem_eq_true hc) h

lemma contains_eq_true_of_mem {l : List Char} {a : Char} (h : a ∈ l) :
    l.contains a = true :=
  List.elem_eq_true_of_mem h

lemma pySplit_of_not_mem {sep : Char} :
    ∀ {l : List Char}, sep ∉ l → pySplit sep l = [l]
  | [], _ => rfl
  | c :: cs, h => by
    have hc : ¬c = sep := fun e => h (by simp [e])
    have ih : pySplit sep cs = [cs] :=
      pySplit_of_not_mem fun hm => h (by simp [hm])
    simp only [pySplit, if_neg hc, ih]

lemma pySplit_append {sep : Char} :
    ∀ {a : List Char} (b : List Char), sep ∉ a →
      pySplit sep (a ++ sep :: b) = a :: pySplit sep b
  | [], b, _ => by simp [pySplit]
  | c :: a', b, h => by
    have hc : ¬c = sep := fun e => h (by simp [e])
    have ih : pySplit sep (a' ++ sep :: b) = a' :: pySplit sep b :=
      pySplit_append b fun hm => h (by simp [hm])
    simp only [List.cons_append, pySplit, if_neg hc, List.append_eq, ih]

lemma digitsVal_append_singleton (xs : List Char) (c : Char) :
    digitsVal (xs ++ [c]) = 10 * digitsVal xs + digVal c := by
  simp [digitsVal, List.foldl_append]

lemma digitsVal_cons_zero (cs : List Char) :
    digitsVal ('0' :: cs) = digitsVal cs := by
  simp [digitsVal, digVal]

lemma digVal_digChar {d : ℕ} (h : d < 10) : digVal (digChar d) = d := by
  interval_cases d <;> decide

lemma isDig_digChar {d : ℕ} (h : d < 10) : isDig (digChar d) = true := by
  interval_cases d <;> decide

lemma natDigsAux_spec :
    ∀ (fuel n : ℕ), n < fuel →
      digitsVal (natDigsAux fuel n) = n ∧ natDigsAux fuel n ≠ [] ∧
        ∀ c ∈ natDigsAux fuel n, isDig c = true := by
  intro fuel
  induction fuel with
  | zero => intro n h; omega
  | succ f ih =>
    intro n h
    by_cases h10 : n < 10
    · refine ⟨?_, ?_, ?_⟩ <;> simp only [natDigsAux, if_pos h10]
      · simp [digitsVal, digVal_digChar h10]
      · simp
      · intro c hc
        simp only [List.mem_singleton] at hc
        subst hc
        exact isDig_digChar h10
    · have hdiv : n / 10 < n := Nat.div_lt_self (by omega) (by omega)
      have hlt : n / 10 < f := by omega
      obtain ⟨ih1, ih2, ih3⟩ := ih (n / 10) hlt
      have hm : n % 10 < 10 := Nat.mod_lt _ (by omega)
      refine ⟨?_, ?_, ?_⟩ <;> simp only [natDigsAux, if_neg h10]
      · rw [digitsVal_append_singleton, ih1, digVal_digChar hm]
        omega
      · simp
      · intro c hc
        rcases List.mem_append.mp hc with hc | hc
        · exact ih3 c hc
        · simp only [List.mem_singleton] at hc
          subst hc
          exact isDig_digChar hm

lemma digitsVal_natDigs (n : ℕ) : digitsVal (natDigs n) = n :=
  (natDigsAux_spec _ _ (Nat.lt_succ_self n)).1

lemma natDigs_ne_nil (n : ℕ) : natDigs n ≠ [] :=
  (natDigsAux_spec _ _ (Nat.lt_succ_self n)).2.1

lemma natDigs_digit {n : ℕ} : ∀ c ∈ natDigs n, isDig c = true :=
  (natDigsAux_spec _ _ (Nat.lt_succ_self n)).2.2

lemma mem_intDigs {n : Int} {c : Char} (h : c ∈ intDigs n) :
    isDig c = true ∨ c = '-' := by
  unfold intDigs at h
  split at h
  · rcases List.mem_cons.mp h with rfl | h
    · right; rfl
    · left; exact natDigs_digit c h
  · left; exact natDigs_digit c h

lemma mem_fmt02 {n : Int} {c : Char} (h : c ∈ fmt02 n) :
    isDig c = true ∨ c = '-' := by
  simp only [fmt02] at h
  split at h
  · rcases List.mem_cons.mp h with rfl | h
    · left; decide
    · exact mem_intDigs h
  · exact mem_intDigs h

lemma mem_renderHM {h m : Int} {c : Char} (hc : c ∈ renderHM h m) :
    isDig c = true ∨ c = '-' ∨ c = ':' := by
  unfold renderHM at hc
  rcases List.mem_append.mp hc with hc | hc
  · rcases mem_fmt02 hc with hd | hd
    · exact Or.inl hd
    · exact Or.inr (Or.inl hd)
  · rcases List.mem_cons.mp hc with rfl | hc
    · exact Or.inr (Or.inr rfl)
    · rcases mem_fmt02 hc with hd | hd
      · exact Or.inl hd
      · exact Or.inr (Or.inl hd)

lemma renderHM_nonspace {h m : Int} : ∀ c ∈ renderHM h m, isPySpace c = false := by
  intro c hc
  rcases mem_renderHM hc with hd | rfl | rfl
  · exact isPySpace_of_isDig hd
  · decide
  · decide

lemma renderHM_toNat_lt {h m : Int} : ∀ c ∈ renderHM h m, c.toNat < 97 := by
  intro c hc
  rcases mem_renderHM hc with hd | rfl | rfl
  · have := toNat_of_isDig hd; omega
  · decide
  · decide

lemma pyInt?_all_digits {l : List Char} (hne : l ≠ [])
    (hd : ∀ c ∈ l, isDig c = true) : pyInt? l = some (digitsVal l : Int) := by
  have hstrip : pyStrip l = l :=
    pyStrip_eq_self fun c hc => isPySpace_of_isDig (hd c hc)
  unfold pyInt?
  rw [hstrip]
  cases l with
  | nil => exact absurd rfl hne
  | cons c cs =>
    have hcd := toNat_of_isDig (hd c (by simp))
    have hplus : ¬c = '+' := fun e => by
      subst e; exact absurd hcd (by decide)
    have hminus : ¬c = '-' := fun e => by
      subst e; exact absurd hcd (by decide)
    simp only [pyIntCore, if_neg hplus, if_neg hminus,
      if_pos (List.all_eq_true.mpr hd)]

lemma fmt02_of_neg {n : Int} (hn : n < 0) :
    fmt02 n = '-' :: natDigs n.natAbs := by
  have hne := natDigs_ne_nil n.natAbs
  have hlen : ¬('-' :: natDigs n.natAbs).length = 1 := by
    rw [List.length_cons]
    intro h
    exact hne (List.length_eq_zero.mp (by omega))
  simp only [fmt02, intDigs, if_pos hn, if_neg hlen]

lemma fmt02_of_nonneg {n : Int} (hn : 0 ≤ n) :
    fmt02 n = natDigs n.toNat ∨ fmt02 n = '0' :: natDigs n.toNat := by
  simp only [fmt02, intDigs, if_neg (not_lt.mpr hn)]
  split
  · exact Or.inr rfl
  · exact Or.inl rfl

lemma pyInt?_fmt02 (n : Int) : pyInt? (fmt02 n) = some n := by
  rcases lt_or_le n 0 with hn | hn
  · rw [fmt02_of_neg hn]
    have hstrip : pyStrip ('-' :: natDigs n.natAbs) = '-' :: natDigs n.natAbs := by
      refine pyStrip_eq_self fun c hc => ?_
      rcases List.mem_cons.mp hc with rfl | hc
      · decide
      · exact isPySpace_of_isDig (natDigs_digit c hc)
    unfold pyInt?
    rw [hstrip]
    simp only [pyIntCore, if_neg (show ¬ '-' = '+' by decide)]
    rw [if_pos trivial,
      if_pos ⟨natDigs_ne_nil _, List.all_eq_true.mpr natDigs_digit⟩,
      digitsVal_natDigs]
    congr 1
    omega
  · rcases fmt02_of_nonneg hn with hf | hf <;> rw [hf]
    · rw [pyInt?_all_digits (natDigs_ne_nil _) natDigs_digit, digitsVal_natDigs]
      congr 1
      omega
    · rw [pyInt?_all_digits (by simp) ?_]
      · rw [digitsVal_cons_zero, digitsVal_natDigs]
        congr 1
        omega
      · intro c hc
        rcases List.mem_cons.mp hc with rfl | hc
        · decide
        · exact natDigs_digit c hc

lemma colon_not_mem_fmt02 (n : Int) : ':' ∉ fmt02 n := by
  intro hc
  rcases mem_fmt02 hc with hd | hd
  · exact absurd hd (by decide)
  · exact absurd hd (by decide)

lemma dot_not_mem_renderHM (h m : Int) : '.' ∉ renderHM h m := by
  intro hc
  rcases mem_renderHM hc with hd | hd | hd
  · exact absurd hd (by decide)
  · exact absurd hd (by decide)
  · exact absurd hd (by decide)

lemma pySplit_renderHM (h m : Int) :
    pySplit ':' (renderHM h m) = [fmt02 h, fmt02 m] := by
  unfold renderHM
  rw [pySplit_append _ (colon_not_mem_fmt02 h),
    pySplit_of_not_mem (colon_not_mem_fmt02 m)]

lemma colonParse?_renderHM (h m : Int) :
    colonParse? (renderHM h m) = some (h, m) := by
  unfold colonParse?
  rw [pySplit_renderHM]
  simp [pyInt?_fmt02]

/-- The preprocessing of `normalize_time` (strip, uppercase, suffix removal)
leaves a rendered `HH:MM` value unchanged. -/
lemma preprocess_renderHM (h m : Int) :
    stripHrs (pyUpper (pyStrip (renderHM h m))) = renderHM h m := by
  rw [pyStrip_eq_self renderHM_nonspace, pyUpper_eq_self renderHM_toNat_lt]
  refine stripHrs_eq_self fun c t hct => ?_
  have hc : c ∈ renderHM h m := by
    rw [← List.mem_reverse, hct]
    simp
  rcases mem_renderHM hc with hd | rfl | rfl
  · have := toNat_of_isDig hd
    omega
  · decide
  · decide

/-- A rendered `HH:MM` value is a fixed point of `normalize_time`'s core. -/
lemma normTimeL_renderHM (h m : Int) :
    normTimeL (renderHM h m) = renderHM h m := by
  simp only [normTimeL, preprocess_renderHM,
    contains_eq_false_of_not_mem (dot_not_mem_renderHM h m)]
  have hmem : ':' ∈ renderHM h m := by
    unfold renderHM
    simp
  simp only [contains_eq_true_of_mem hmem, if_true, Bool.false_eq_true,
    if_false, colonParse?_renderHM]

/-- Whenever a parse branch of `normalize_time` succeeds, the result is a
rendered `HH:MM` value. -/
lemma normTimeL_eq_renderHM_of_timeParsed {s : String} (h : timeParsed s = true) :
    ∃ hh mm : Int, normTimeL s.data = renderHM hh mm := by
  simp only [timeParsed] at h
  simp only [normTimeL]
  set u := stripHrs (pyUpper (pyStrip s.data)) with hu
  cases hd : (if u.contains '.' then dotParse? u else none) with
  | some p =>
    obtain ⟨hh, mm⟩ := p
    exact ⟨hh, mm, rfl⟩
  | none =>
    have h2 : u.contains ':' = true ∧ (colonParse? u).isSome = true := by
      by_cases hcd : u.contains '.' = true
      · rw [if_pos hcd] at hd
        rw [hcd, hd] at h
        simpa using h
      · have hf : u.contains '.' = false := by
          cases hcc : u.contains '.'
          · rfl
          · exact absurd hcc hcd
        rw [hf] at h
        simpa using h
    obtain ⟨hc, hsome⟩ := h2
    obtain ⟨⟨hh, mm⟩, hcp⟩ := Option.isSome_iff_exists.mp hsome
    refine ⟨hh, mm, ?_⟩
    have hcol : (if u.contains ':' then colonParse? u else none) = some (hh, mm) := by
      rw [if_pos hc, hcp]
    rw [hcol]

/-- The decimal branch of `normalize_time` on a token of the decimal-hour
shape: the fractional digits are interpreted as a fraction of an hour
(`⌊val·60/100⌋` minutes for a two-digit fraction), not as literal minutes. -/
lemma normTimeL_decimal (ds : List Char) (hne : ds ≠ [])
    (hds : ∀ c ∈ ds, isDig c = true) (m1 m2 : Char)
    (h1 : isDig m1 = true) (h2 : isDig m2 = true) :
    normTimeL (ds ++ '.' :: [m1, m2]) =
      renderHM (digitsVal ds) ((digitsVal [m1, m2] * 60 / 100 : ℕ)) := by
  set l := ds ++ '.' :: [m1, m2] with hl
  have hmem : ∀ c ∈ l, isDig c = true ∨ c = '.' := by
    intro c hc
    rcases List.mem_append.mp hc with hc | hc
    · exact Or.inl (hds c hc)
    · rcases List.mem_cons.mp hc with rfl | hc
      · exact Or.inr rfl
      · rcases List.mem_cons.mp hc with rfl | hc
        · exact Or.inl h1
        · simp only [List.mem_singleton] at hc
          subst hc
          exact Or.inl h2
  have hstrip : pyStrip l = l := by
    refine pyStrip_eq_self fun c hc => ?_
    rcases hmem c hc with hd | rfl
    · exact isPySpace_of_isDig hd
    · decide
  have hupper : pyUpper l = l := by
    refine pyUpper_eq_self fun c hc => ?_
    rcases hmem c hc with hd | rfl
    · have := toNat_of_isDig hd
      omega
    · decide
  have hhrs : stripHrs l = l := by
    refine stripHrs_eq_self fun c t hct => ?_
    have hc : c ∈ l := by
      rw [← List.mem_reverse, hct]
      simp
    rcases hmem c hc with hd | rfl
    · have := toNat_of_isDig hd
      omega
    · decide
  have hpre : stripHrs (pyUpper (pyStrip l)) = l := by rw [hstrip, hupper, hhrs]
  have hdotmem : '.' ∈ l := by
    rw [hl]
    simp
  have hsplit : pySplit '.' l = [ds, [m1, m2]] := by
    rw [hl, pySplit_append _ ?nds, pySplit_of_not_mem ?nm]
    case nds =>
      intro hdm
      exact absurd (hds '.' hdm) (by decide)
    case nm =>
      intro hdm
      rcases List.mem_cons.mp hdm with e | hdm
      · rw [← e] at h1
        exact absurd h1 (by decide)
      · simp only [List.mem_singleton] at hdm
        rw [← hdm] at h2
        exact absurd h2 (by decide)
  have hfrac : fracMinutes? [m1, m2] = some ((digitsVal [m1, m2] * 60 / 100 : ℕ)) := by
    unfold fracMinutes?
    rw [if_pos (by simp [h1, h2])]
    norm_num
  have hdot : dotParse? l =
      some ((digitsVal ds : Int), ((digitsVal [m1, m2] * 60 / 100 : ℕ) : Int)) := by
    unfold dotParse?
    rw [hsplit]
    simp [pyInt?_all_digits hne hds, hfrac]
  simp only [normTimeL]
  rw [hpre, contains_eq_true_of_mem hdotmem, if_pos rfl, hdot]

/-! ## Supporting lemmas: the reconciler -/

lemma mem_tokenVals_start :
    ∀ {input : List Candidate} {c : Candidate}, c ∈ input →
      ∀ {v}, c.start_time? = some v → v ∈ tokenVals input := by
  intro input
  induction input with
  | nil => intro c hc; exact absurd hc (List.not_mem_nil c)
  | cons d rest ih =>
    intro c hc v hv
    show v ∈ d.start_time?.toList ++ d.end_time?.toList ++ tokenVals rest
    rcases List.mem_cons.mp hc with rfl | hc
    · rw [hv]
      simp
    · simp only [List.mem_append]
      exact Or.inr (ih hc hv)

lemma mem_tokenVals_end :
    ∀ {input : List Candidate} {c : Candidate}, c ∈ input →
      ∀ {v}, c.end_time? = some v → v ∈ tokenVals input := by
  intro input
  induction input with
  | nil => intro c hc; exact absurd hc (List.not_mem_nil c)
  | cons d rest ih =>
    intro c hc v hv
    show v ∈ d.start_time?.toList ++ d.end_time?.toList ++ tokenVals rest
    rcases List.mem_cons.mp hc with rfl | hc
    · rw [hv]
      simp
    · simp only [List.mem_append]
      exact Or.inr (ih hc hv)

lemma fwdFill_vals {S : List ℕ} :
    ∀ {l : List Item} {last : Option ℕ},
      (∀ it ∈ l, ItemVals S it) → (∀ v, last = some v → v ∈ S) →
      ∀ it ∈ fwdFill last l, ItemVals S it := by
  intro l
  induction l with
  | nil => intro last _ _ it hit; exact absurd hit (List.not_mem_nil it)
  | cons c rest ih =>
    intro last hl hlast it hit
    have hc := hl c (by simp)
    have hrest : ∀ x ∈ rest, ItemVals S x := fun x hx => hl x (by simp [hx])
    rcases List.mem_cons.mp hit with rfl | hit
    · constructor
      · intro v hv
        cases hs : c.start_time? with
        | some s =>
          simp only [fwdFill, hs] at hv
          exact hc.1 v (hs.trans hv)
        | none =>
          simp only [fwdFill, hs] at hv
          exact hlast v hv
      · intro v hv
        cases hs : c.start_time? with
        | some s =>
          simp only [fwdFill, hs] at hv
          exact hc.2 v hv
        | none =>
          simp only [fwdFill, hs] at hv
          exact hc.2 v hv
    · refine ih hrest ?_ it hit
      intro v hv
      cases he : c.end_time? with
      | some e =>
        rw [he] at hv
        exact hc.2 v (he.trans hv)
      | none =>
        rw [he] at hv
        exact hlast v hv

lemma bwdFill_vals {S : List ℕ} :
    ∀ {l : List Item}, (∀ it ∈ l, ItemVals S it) →
      (∀ it ∈ (bwdFill l).1, ItemVals S it) ∧
        (∀ v, (bwdFill l).2 = some v → v ∈ S) := by
  intro l
  induction l with
  | nil =>
    intro _
    constructor
    · intro it hit; exact absurd hit (List.not_mem_nil it)
    · intro v hv; simp [bwdFill] at hv
  | cons c rest ih =>
    intro hl
    have hc := hl c (by simp)
    obtain ⟨ih1, ih2⟩ := ih fun x hx => hl x (by simp [hx])
    constructor
    · intro it hit
      simp only [bwdFill] at hit
      rcases List.mem_cons.mp hit with rfl | hit
      · constructor
        · intro v hv
          cases he : c.end_time? with
          | some e => simp only [he] at hv; exact hc.1 v hv
          | none => simp only [he] at hv; exact hc.1 v hv
        · intro v hv
          cases he : c.end_time? with
          | some e => simp only [he] at hv; exact hc.2 v (he.trans hv)
          | none => simp only [he] at hv; exact ih2 v hv
      · exact ih1 it hit
    · intro v hv
      simp only [bwdFill] at hv
      cases hs : c.start_time? with
      | some s => simp only [hs] at hv; exact hc.1 v (hs.trans hv)
      | none => simp only [hs] at hv; exact ih2 v hv

lemma clampNext_vals {S : List ℕ} {x y : Item} (hx : ItemVals S x)
    (hy : ItemVals S y) : ItemVals S (clampNext x y) := by
  unfold clampNext
  by_cases hr : x.isRest = true
  · rw [if_pos hr]
    cases he : x.end_time? with
    | none => cases hs : y.start_time? <;> exact hy
    | some e =>
      cases hs : y.start_time? with
      | none => exact hy
      | some s =>
        show ItemVals S (if s < e then { y with start_time? := some e } else y)
        by_cases hlt : s < e
        · rw [if_pos hlt]
          constructor
          · intro v hv
            simp only at hv
            have : e = v := Option.some.inj hv
            subst this
            exact hx.2 e he
          · intro v hv
            exact hy.2 v hv
        · rw [if_neg hlt]
          exact hy
  · rw [if_neg hr]
    exact hy

lemma clampGo_vals {S : List ℕ} :
    ∀ {l : List Item} {x : Item}, ItemVals S x → (∀ it ∈ l, ItemVals S it) →
      ∀ it ∈ clampGo x l, ItemVals S it := by
  intro l
  induction l with
  | nil =>
    intro x hx _ it hit
    simp only [clampGo, List.mem_singleton] at hit
    subst hit
    exact hx
  | cons y rest ih =>
    intro x hx hl it hit
    simp only [clampGo] at hit
    rcases List.mem_cons.mp hit with rfl | hit
    · exact hx
    · exact ih (clampNext_vals hx (hl y (by simp)))
        (fun z hz => hl z (by simp [hz])) it hit

lemma clampRests_vals {S : List ℕ} {l : List Item}
    (hl : ∀ it ∈ l, ItemVals S it) : ∀ it ∈ clampRests l, ItemVals S it := by
  cases l with
  | nil => intro it hit; exact absurd hit (List.not_mem_nil it)
  | cons x rest =>
    exact clampGo_vals (hl x (by simp)) (fun z hz => hl z (by simp [hz]))

lemma processedOf_vals (input : List Candidate) :
    ∀ it ∈ processedOf input, ItemVals (tokenVals input) it := by
  unfold processedOf
  refine clampRests_vals ?_
  refine (bwdFill_vals ?_).1
  refine fwdFill_vals ?_ (by intro v hv; cases hv)
  intro it hit
  rw [sortItems, List.mem_insertionSort] at hit
  obtain ⟨c, hc, rfl⟩ := List.mem_map.mp hit
  have hcin : c ∈ input := List.mem_of_mem_filter hc
  exact ⟨fun v hv => mem_tokenVals_start hcin hv,
    fun v hv => mem_tokenVals_end hcin hv⟩

lemma anchor_clampNext (x y : Item) : (clampNext x y).anchor = y.anchor := by
  unfold clampNext
  split
  · cases he : x.end_time? with
    | none => cases hs : y.start_time? <;> rfl
    | some e =>
      cases hs : y.start_time? with
      | none => rfl
      | some s =>
        show (if s < e then { y with start_time? := some e } else y).anchor = _
        split <;> rfl
  · rfl

lemma map_anchor_fwdFill :
    ∀ (l : List Item) (last : Option ℕ),
      (fwdFill last l).map Item.anchor = l.map Item.anchor
  | [], _ => rfl
  | c :: rest, last => by
    cases hs : c.start_time? <;>
      simp [fwdFill, hs, map_anchor_fwdFill rest]

lemma map_anchor_bwdFill :
    ∀ (l : List Item), (bwdFill l).1.map Item.anchor = l.map Item.anchor
  | [] => rfl
  | c :: rest => by
    cases he : c.end_time? <;>
      simp [bwdFill, he, map_anchor_bwdFill rest]

lemma map_anchor_clampGo :
    ∀ (l : List Item) (x : Item),
      (clampGo x l).map Item.anchor = x.anchor :: l.map Item.anchor
  | [], _ => rfl
  | y :: rest, x => by
    simp only [clampGo, List.map_cons, map_anchor_clampGo rest]
    rw [anchor_clampNext]

lemma map_anchor_clampRests (l : List Item) :
    (clampRests l).map Item.anchor = l.map Item.anchor := by
  cases l with
  | nil => rfl
  | cons x rest => simp [clampRests, map_anchor_clampGo]

lemma processedOf_anchor_pairwise (input : List Candidate) :
    List.Pairwise (fun a b : Item => a.anchor ≤ b.anchor)
      (processedOf input) := by
  have hs : List.Pairwise (fun a b : Item => a.anchor ≤ b.anchor)
      (sortItems ((anchoredPart input).map mkItem)) :=
    List.sorted_insertionSort _ _
  have hmap :
      (processedOf input).map Item.anchor =
        (sortItems ((anchoredPart input).map mkItem)).map Item.anchor := by
    unfold processedOf
    rw [map_anchor_clampRests, map_anchor_bwdFill, map_anchor_fwdFill]
  have h1 := (List.pairwise_map (l := processedOf input)
    (R := fun a b : ℕ => a ≤ b) (f := Item.anchor))
  have h2 := (List.pairwise_map (l := sortItems ((anchoredPart input).map mkItem))
    (R := fun a b : ℕ => a ≤ b) (f := Item.anchor))
  exact h1.mp (by rw [hmap]; exact h2.mpr hs)

/-- The forward pass fills a missing start from the immediately preceding
item's known end (for any accumulator and any position). -/
lemma fwdFill_fills_start :
    ∀ (l : List Item) (init : Option ℕ) (i : ℕ) (p c : Item) (e : ℕ),
      l.get? i = some p → l.get? (i + 1) = some c →
      p.end_time? = some e → c.start_time? = none →
      (fwdFill init l).get? (i + 1) =
        some { c with start_time? := some e } := by
  intro l
  induction l with
  | nil => intro init i p c e hp _ _ _; simp at hp
  | cons d rest ih =>
    intro init i p c e hp hc hpe hcs
    cases i with
    | zero =>
      simp only [List.get?_cons_zero, Option.some.injEq] at hp
      subst hp
      simp only [List.get?_cons_succ] at hc
      cases rest with
      | nil => simp at hc
      | cons c0 ys =>
        simp only [List.get?_cons_zero, Option.some.injEq] at hc
        subst hc
        simp only [fwdFill, hpe, hcs, List.get?_cons_succ, List.get?_cons_zero]
    | succ j =>
      simp only [List.get?_cons_succ] at hp hc
      simp only [fwdFill, List.get?_cons_succ]
      exact ih _ j p c e hp hc hpe hcs

/-- The backward pass fills a missing end from the immediately following
item's known start (for any position). -/
lemma bwdFill_fills_end :
    ∀ (l : List Item) (i : ℕ) (c n : Item) (s : ℕ),
      l.get? i = some c → l.get? (i + 1) = some n →
      c.end_time? = none → n.start_time? = some s →
      (bwdFill l).1.get? i = some { c with end_time? := some s } := by
  intro l
  induction l with
  | nil => intro i c n s hc _ _ _; simp at hc
  | cons d rest ih =>
    intro i c n s hc hn hce hns
    cases i with
    | zero =>
      simp only [List.get?_cons_zero, Option.some.injEq] at hc
      subst hc
      simp only [List.get?_cons_succ] at hn
      cases rest with
      | nil => simp at hn
      | cons n0 ys =>
        simp only [List.get?_cons_zero, Option.some.injEq] at hn
        subst hn
        simp only [bwdFill, hce, hns, List.get?_cons_zero]
    | succ j =>
      simp only [List.get?_cons_succ] at hc hn
      have ihj := ih j c n s hc hn hce hns
      simp only [bwdFill, List.get?_cons_succ]
      exact ihj

/-- After the clamp pass, an item directly following a rest period with a
known end never starts before that end. -/
lemma clampGo_rest_floor :
    ∀ (l : List Item) (x : Item) (i : ℕ) (r f : Item) (e s : ℕ),
      (clampGo x l).get? i = some r → (clampGo x l).get? (i + 1) = some f →
      r.isRest = true → r.end_time? = some e → f.start_time? = some s →
      e ≤ s := by
  intro l
  induction l with
  | nil =>
    intro x i r f e s _ hf _ _ _
    rcases i with _ | j
    · simp [clampGo] at hf
    · simp [clampGo] at hf
  | cons y rest ih =>
    intro x i r f e s hr hf hrest he hs
    simp only [clampGo] at hr hf
    cases i with
    | zero =>
      simp only [List.get?_cons_zero, Option.some.injEq] at hr
      subst hr
      simp only [List.get?_cons_succ] at hf
      have hhead : (clampGo (clampNext x y) rest).get? 0 =
          some (clampNext x y) := by
        cases rest <;> rfl
      rw [hhead] at hf
      have hf' : clampNext x y = f := Option.some.inj hf
      unfold clampNext at hf'
      rw [if_pos hrest] at hf'
      cases hys : y.start_time? with
      | none =>
        simp only [he, hys] at hf'
        rw [← hf', hys] at hs
        cases hs
      | some s0 =>
        simp only [he, hys] at hf'
        by_cases hlt : s0 < e
        · rw [if_pos hlt] at hf'
          rw [← hf'] at hs
          simp only [Option.some.injEq] at hs
          omega
        · rw [if_neg hlt] at hf'
          rw [← hf', hys] at hs
          have : s0 = s := Option.some.inj hs
          omega
    | succ j =>
      simp only [List.get?_cons_succ] at hr hf
      exact ih (clampNext x y) j r f e s hr hf hrest he hs

/-- The rest-floor property of the whole clamp step. -/
lemma clampRests_rest_floor (l : List Item) (i : ℕ) (r f : Item) (e s : ℕ)
    (hr : (clampRests l).get? i = some r)
    (hf : (clampRests l).get? (i + 1) = some f)
    (hrest : r.isRest = true) (he : r.end_time? = some e)
    (hs : f.start_time? = some s) : e ≤ s := by
  cases l with
  | nil => simp [clampRests] at hr
  | cons x rest => exact clampGo_rest_floor rest x i r f e s hr hf hrest he hs

lemma filterMap_eq_filterMap_filter {α β : Type} (f : α → Option β) :
    ∀ l : List α,
      l.filterMap f = (l.filter fun a => (f a).isSome).filterMap f
  | [] => rfl
  | a :: t => by
    cases hf : f a <;>
      simp [List.filterMap_cons, List.filter_cons, hf,
        filterMap_eq_filterMap_filter f t]

/-- Applying `normalize_time` on an input where both parse branches fail returns the
stripped, uppercased, suffix-stripped token itself. -/
lemma normTimeL_of_not_parsed {s : String} (h : timeParsed s = false) :
    normTimeL s.data = stripHrs (pyUpper (pyStrip s.data)) := by
  simp only [normTimeL]
  simp only [timeParsed] at h
  set u := stripHrs (pyUpper (pyStrip s.data)) with hu
  have h1 : (if u.contains '.' then dotParse? u else none) = none := by
    cases hc : u.contains '.' with
    | false => rw [if_neg (by simp [hc])]
    | true =>
      rw [if_pos rfl]
      cases hd : dotParse? u with
      | none => rfl
      | some p =>
        rw [hc, hd] at h
        simp at h
  have h2 : (if u.contains ':' then colonParse? u else none) = none := by
    cases hc : u.contains ':' with
    | false => rw [if_neg (by simp [hc])]
    | true =>
      rw [if_pos rfl]
      cases hd : colonParse? u with
      | none => rfl
      | some p =>
        rw [hc, hd] at h
        simp at h
  rw [h1, h2]

/-- Applying `normalize_date` on an input where every format fails, before and after
ordinal stripping, returns the stripped, ordinal-stripped token itself. -/
lemma normDateL_of_not_parsed {s : String}
    (h1 : tryFormats (pyStrip s.data) = none)
    (h2 : tryFormats (ordStrip (pyStrip s.data)) = none) :
    normDateL s.data = ordStrip (pyStrip s.data) := by
  simp only [normDateL]
  rw [h1, h2]

/-- A successful CSV export of a nonempty events list starts with the header
row made of the first event's keys. -/
lemma download_csv_header (d : PyDict) (rest : List PyDict) (out : String)
    (h : download_csv (d :: rest) = .ok out) :
    ∃ tail, out = csvRecord (d.map fun kv => kv.1) ++ tail := by
  simp only [download_csv] at h
  cases hm : (d :: rest).mapM (csvRow (d.map fun kv => kv.1)) with
  | error e =>
    simp only [hm] at h
    exact Except.noConfusion h
  | ok rows =>
    simp only [hm] at h
    simp only [Except.ok.injEq] at h
    exact ⟨String.join rows, h.symm⟩

/-! ## The claims -/

/-- C1.  No fabrication: every resolved event's `start_time` and `end_time`
value occurs among the timestamp token values of the input document — filled
bounds are copied from a neighbour's (already token-derived) boundary, so no
resolved timestamp is ever invented.  (Reconciler modelled from the
specification, §4.3.) -/
theorem claim_C1 (input : List Candidate) :
    ∀ ev ∈ (reconcile input).1,
      ev.start_time ∈ tokenVals input ∧ ev.end_time ∈ tokenVals input := by
  intro ev hev
  obtain ⟨it, hit, hfin⟩ := List.mem_filterMap.mp hev
  have hvals := processedOf_vals input it hit
  unfold finalizeItem? at hfin
  cases hs : it.start_time? with
  | none => rw [hs] at hfin; cases he : it.end_time? <;> simp [he] at hfin
  | some s =>
    cases he : it.end_time? with
    | none => rw [hs, he] at hfin; simp at hfin
    | some e =>
      rw [hs, he] at hfin
      simp only at hfin
      split at hfin
      · have hev' := Option.some.inj hfin
        subst hev'
        exact ⟨hvals.1 s hs, hvals.2 e he⟩
      · cases hfin

/-- Witness for C1 at a concrete document. -/
theorem claim_C1_witness :
    (⟨"Loading", 600, 720, false⟩ : ResolvedEvent) ∈
        (reconcile [⟨"Loading", some 600, some 720, false⟩]).1 ∧
      600 ∈ tokenVals [⟨"Loading", some 600, some 720, false⟩] ∧
      720 ∈ tokenVals [⟨"Loading", some 600, some 720, false⟩] :=
  ⟨by decide,
    (claim_C1 [⟨"Loading", some 600, some 720, false⟩]
      ⟨"Loading", 600, 720, false⟩ (by decide)).1,
    (claim_C1 [⟨"Loading", some 600, some 720, false⟩]
      ⟨"Loading", 600, 720, false⟩ (by decide)).2⟩

/-- C2.  Missing-bound inference: in the forward pass a candidate missing its
start time receives the immediately preceding candidate's known end time; in
the backward pass a candidate missing its end time receives the immediately
following candidate's known start time; and the spec's example document
resolves as stated.  (Reconciler modelled from the specification, §4.3;
instants in minutes, 600 = 10:00.) -/
theorem claim_C2 :
    (∀ (l : List Item) (init : Option ℕ) (i : ℕ) (p c : Item) (e : ℕ),
        l.get? i = some p → l.get? (i + 1) = some c →
        p.end_time? = some e → c.start_time? = none →
        (fwdFill init l).get? (i + 1) =
          some { c with start_time? := some e }) ∧
    (∀ (l : List Item) (i : ℕ) (c n : Item) (s : ℕ),
        l.get? i = some c → l.get? (i + 1) = some n →
        c.end_time? = none → n.start_time? = some s →
        (bwdFill l).1.get? i = some { c with end_time? := some s }) ∧
    reconcile [⟨"Loading", some 600, some 720, false⟩,
        ⟨"Waiting", none, some 840, false⟩] =
      ([⟨"Loading", 600, 720, false⟩, ⟨"Waiting", 720, 840, false⟩], []) :=
  ⟨fwdFill_fills_start, bwdFill_fills_end, by decide⟩

/-- Witness for C2's forward pass at a concrete sorted list. -/
theorem claim_C2_witness :
    (fwdFill none [⟨"Loading", some 600, some 720, false, 600⟩,
        ⟨"Waiting", none, some 840, false, 840⟩]).get? 1 =
      some ⟨"Waiting", some 720, some 840, false, 840⟩ :=
  claim_C2.1 _ none 0 ⟨"Loading", some 600, some 720, false, 600⟩
    ⟨"Waiting", none, some 840, false, 840⟩ 720
    (by decide) (by decide) (by decide) (by decide)

/-- C3 counterexample.  On the document
`[Rest 12:00-20:00, E1 13:00-15:00, E2 14:00-16:00]` (instants in minutes)
the rest clamp raises E1's start to 20:00: the resolved output contains
`E1 (1200, 900)` with `start_time > end_time`, and the start-time sequence
`[720, 1200, 840]` is not non-decreasing — the claim's strict ordering
invariant fails as stated. -/
theorem claim_C3_counterexample :
    (reconcile [⟨"Rest period", some 720, some 1200, true⟩,
        ⟨"E1", some 780, some 900, false⟩,
        ⟨"E2", some 840, some 960, false⟩]).1.map ResolvedEvent.start_time =
      [720, 1200, 840] ∧
    (⟨"E1", 1200, 900, false⟩ : ResolvedEvent) ∈
      (reconcile [⟨"Rest period", some 720, some 1200, true⟩,
        ⟨"E1", some 780, some 900, false⟩,
        ⟨"E2", some 840, some 960, false⟩]).1 ∧
    ¬(1200 : ℕ) < 900 ∧ ¬(1200 : ℕ) ≤ 840 := by decide

/-- C3 amended.  What the algorithm does guarantee: every resolved event has
`start_time ≠ end_time` (zero-duration entries are never emitted), the
resolved events are exactly the finalizable items of the processed sequence
in order, and that sequence is non-decreasing in the candidates' sort
anchors.  Strict `start < end` and monotonicity of `start_time` itself can
fail when an inferred bound conflicts with a document token or the rest
clamp raises a start past a later anchor. -/
theorem claim_C3_amended :
    (∀ (input : List Candidate), ∀ ev ∈ (reconcile input).1,
        ev.start_time ≠ ev.end_time) ∧
    (∀ (input : List Candidate),
        List.Pairwise (fun a b : ℕ => a ≤ b)
          (((processedOf input).filter fun it =>
            (finalizeItem? it).isSome).map Item.anchor)) ∧
    (∀ (input : List Candidate),
        (reconcile input).1 =
          ((processedOf input).filter fun it =>
            (finalizeItem? it).isSome).filterMap finalizeItem?) := by
  refine ⟨?_, ?_, ?_⟩
  · intro input ev hev
    obtain ⟨it, _, hfin⟩ := List.mem_filterMap.mp hev
    unfold finalizeItem? at hfin
    cases hs : it.start_time? with
    | none => rw [hs] at hfin; cases he : it.end_time? <;> simp [he] at hfin
    | some s =>
      cases he : it.end_time? with
      | none => rw [hs, he] at hfin; simp at hfin
      | some e =>
        rw [hs, he] at hfin
        simp only at hfin
        split at hfin
        · have hev' := Option.some.inj hfin
          subst hev'
          assumption
        · cases hfin
  · intro input
    have hp := processedOf_anchor_pairwise input
    have hsub : List.Sublist ((processedOf input).filter fun it =>
        (finalizeItem? it).isSome) (processedOf input) :=
      List.filter_sublist _
    exact (List.pairwise_map).mpr (hp.sublist hsub)
  · intro input
    show (processedOf input).filterMap finalizeItem? = _
    exact filterMap_eq_filterMap_filter finalizeItem? (processedOf input)

/-- Witness for C3 amended at a concrete document. -/
theorem claim_C3_amended_witness :
    (⟨"Waiting", 720, 840, false⟩ : ResolvedEvent) ∈
        (reconcile [⟨"Loading", some 600, some 720, false⟩,
          ⟨"Waiting", none, some 840, false⟩]).1 ∧
      (720 : ℕ) ≠ 840 :=
  ⟨by decide,
    claim_C3_amended.1
      [⟨"Loading", some 600, some 720, false⟩, ⟨"Waiting", none, some 840, false⟩]
      ⟨"Waiting", 720, 840, false⟩ (by decide)⟩

/-- C4.  Rest floor: in the processed sequence, any item immediately
following a rest period with a known end time has its (known) start time at
or after that end — the clamp raises a too-early start to the rest's end.
(Reconciler modelled from the specification, §4.3 step 4.) -/
theorem claim_C4 (input : List Candidate) (i : ℕ) (r f : Item) (e s : ℕ)
    (hr : (processedOf input).get? i = some r) (hrest : r.isRest = true)
    (he : r.end_time? = some e)
    (hf : (processedOf input).get? (i + 1) = some f)
    (hs : f.start_time? = some s) : e ≤ s := by
  unfold processedOf at hr hf
  exact clampRests_rest_floor _ i r f e s hr hf hrest he hs

/-- Witness for C4: a start of 13:00 after a rest ending 14:00 is raised to
14:00, and the floor holds. -/
theorem claim_C4_witness :
    (processedOf [⟨"Rest period", some 720, some 840, true⟩,
        ⟨"X", some 780, some 960, false⟩]).get? 1 =
      some ⟨"X", some 840, some 960, false, 780⟩ ∧ (840 : ℕ) ≤ 840 :=
  ⟨by decide,
    claim_C4 [⟨"Rest period", some 720, some 840, true⟩,
        ⟨"X", some 780, some 960, false⟩] 0
      ⟨"Rest period", some 720, some 840, true, 720⟩
      ⟨"X", some 840, some 960, false, 780⟩ 840 840
      (by decide) (by decide) (by decide) (by decide) (by decide)⟩

/-- C5.  Decimal-hour conversion: for every time token of the form `H.MM`
(one or two hour digits, two fractional digits), `normalize_time` interprets
the fractional part as a fraction of 60 minutes — the minutes are
`⌊val(MM)·60/100⌋`, not `val(MM)` — and in particular
`normalize_time "5.30" = "05:18"`, not `"05:30"`. -/
theorem claim_C5 :
    (∀ (ds : List Char), ds ≠ [] → ds.length ≤ 2 →
        (∀ c ∈ ds, isDig c = true) →
        ∀ (m1 m2 : Char), isDig m1 = true → isDig m2 = true →
        normalize_time ⟨ds ++ '.' :: [m1, m2]⟩ =
          ⟨renderHM (digitsVal ds) ((digitsVal [m1, m2] * 60 / 100 : ℕ))⟩) ∧
    normalize_time "5.30" = "05:18" ∧ normalize_time "5.30" ≠ "05:30" := by
  refine ⟨?_, by decide, by decide⟩
  intro ds hne _ hds m1 m2 h1 h2
  exact congrArg (fun l => (⟨l⟩ : String))
    (normTimeL_decimal ds hne hds m1 m2 h1 h2)

/-- Witness for C5 at the token `"5.30"`. -/
theorem claim_C5_witness : normalize_time "5.30" = "05:18" := by
  have h := claim_C5.1 ['5'] (by decide) (by decide) (by decide) '3' '0'
    (by decide) (by decide)
  exact h.trans (by decide)

/-- C6 counterexample.  The token `"FOO"` matches none of the declared date
formats (before or after ordinal stripping) and none of the time parse
branches, yet both normalizers return it unchanged — it is passed through,
not reported unresolved. -/
theorem claim_C6_counterexample :
    tryFormats (pyStrip "FOO".data) = none ∧
    tryFormats (ordStrip (pyStrip "FOO".data)) = none ∧
    normalize_date "FOO" = "FOO" ∧
    timeParsed "FOO" = false ∧
    normalize_time "FOO" = "FOO" := by decide

/-- C6 amended.  When no declared format matches, the normalizers do not
report the token unresolved: `normalize_date` returns the stripped,
ordinal-stripped token itself, and `normalize_time` returns the stripped,
uppercased, suffix-stripped token itself.  Both statements are confined by a
character-set hypothesis to the region where the model's parse failure
provably coincides with CPython's (`modelChar`: ASCII without the 0x1c-0x1f
control whitespace; for times additionally `timeModelChar`: no underscore
and no exponent letter, since CPython's `int`/`float` accept forms such as
`1_2` and `0.3E1` that the model does not).  The hypotheses play no role in
the Lean proof — they bound what is being claimed about the program. -/
theorem claim_C6_amended :
    (∀ s : String, (∀ c ∈ s.data, modelChar c) →
        tryFormats (pyStrip s.data) = none →
        tryFormats (ordStrip (pyStrip s.data)) = none →
        normalize_date s = ⟨ordStrip (pyStrip s.data)⟩) ∧
    (∀ s : String, (∀ c ∈ s.data, timeModelChar c) →
        timeParsed s = false →
        normalize_time s = ⟨stripHrs (pyUpper (pyStrip s.data))⟩) := by
  constructor
  · intro s _ h1 h2
    exact congrArg (fun l => (⟨l⟩ : String)) (normDateL_of_not_parsed h1 h2)
  · intro s _ h
    exact congrArg (fun l => (⟨l⟩ : String)) (normTimeL_of_not_parsed h)

/-- Witness for C6 amended at the token `"FOO"`, exercising both the date
and the time conjunct with all hypotheses discharged concretely. -/
theorem claim_C6_witness :
    normalize_date "FOO" = "FOO" ∧ normalize_time "FOO" = "FOO" := by
  constructor
  · exact (claim_C6_amended.1 "FOO" (by decide) (by decide) (by decide)).trans
      (by decide)
  · exact (claim_C6_amended.2 "FOO" (by decide) (by decide)).trans (by decide)

/-- C7.  `extract_events` is *not* total: on the single whitespace-indented
line `"  pilot on board"` (an event with no inline date or time), the code
looks the stripped line up in the list of unstripped lines
(`line_idx = lines.index(line)` after `line = line.strip()`), `list.index`
raises `ValueError`, and the whole extraction aborts instead of placing the
candidate in an output list. -/
theorem claim_C7 :
    extract_events "  pilot on board" = .error "pilot on board" := rfl

/-- C8.  The metrics formula: `total = |resolved| + |unresolved|`,
`successfully_parsed = |resolved|`, `skipped = |unresolved|`, and the
success rate is `resolved/total · 100` rounded to two decimals, with rate 0
when there are no events at all. -/
theorem claim_C8 {α β : Type} (resolved : List α) (unresolved : List β) :
    (calculate_analysis_metrics resolved unresolved).total_events_found =
        resolved.length + unresolved.length ∧
    (calculate_analysis_metrics resolved unresolved).successfully_parsed =
        resolved.length ∧
    (calculate_analysis_metrics resolved unresolved).skipped_events =
        unresolved.length ∧
    (calculate_analysis_metrics resolved unresolved).success_rate =
        (if resolved.length + unresolved.length = 0 then (0 : ℚ) else
          pyRound2 ((resolved.length : ℚ) /
            ((resolved.length + unresolved.length : ℕ) : ℚ) * 100)) := by
  refine ⟨rfl, rfl, rfl, ?_⟩
  simp only [calculate_analysis_metrics]
  by_cases h : resolved.length + unresolved.length = 0
  · rw [if_pos h, if_neg (by omega)]
    norm_num [pyRound2, roundHE]
  · rw [if_neg h, if_pos (by omega)]

/-- C9 counterexample.  A nonempty timeline whose first event has key `foo`
exports with column `foo`, not `(event, start_time, end_time)` — the columns
are not fixed regardless of content. -/
theorem claim_C9_counterexample :
    download_csv [[("foo", "bar")]] = .ok "foo\r\nbar\r\n" ∧
      ¬([("foo", "bar")].map fun kv : String × String => kv.1) =
        ["event", "start_time", "end_time"] :=
  ⟨rfl, by decide⟩

/-- C9 amended.  The CSV export's columns are exactly the keys of the
*first* resolved event, in stored order: every successful export of a
nonempty list begins with that header row.  When the first event has keys
`(event, start_time, end_time)` the header is exactly those columns. -/
theorem claim_C9_amended (d : PyDict) (rest : List PyDict) (out : String)
    (h : download_csv (d :: rest) = .ok out) :
    ∃ tail, out = csvRecord (d.map fun kv => kv.1) ++ tail :=
  download_csv_header d rest out h

/-- Witness for C9 amended at a well-formed resolved event. -/
theorem claim_C9_witness :
    download_csv [[("event", "Loading"), ("start_time", "10:00"),
        ("end_time", "12:00")]] =
      .ok "event,start_time,end_time\r\nLoading,10:00,12:00\r\n" ∧
    ∃ tail, "event,start_time,end_time\r\nLoading,10:00,12:00\r\n" =
      csvRecord ["event", "start_time", "end_time"] ++ tail := by
  refine ⟨rfl, ?_⟩
  have h := claim_C9_amended
    [("event", "Loading"), ("start_time", "10:00"), ("end_time", "12:00")] []
    "event,start_time,end_time\r\nLoading,10:00,12:00\r\n" rfl
  exact h

/-- C10 counterexample.  `normalize_time` is not idempotent: on
`"5 HRS HRS"` the first pass strips one `HRS` suffix and returns `"5 HRS"`,
and a second pass strips again, returning `"5"`. -/
theorem claim_C10_counterexample :
    normalize_time (normalize_time "5 HRS HRS") ≠
      normalize_time "5 HRS HRS" := by decide

/-- C10 amended.  Idempotence holds on every successfully parsed input:
whenever `normalize_time` returns through a parse branch (so its output is
an `HH:MM` rendering), that output is a fixed point.  Only the unparsed
pass-through path can fail to be a fixed point, because the trailing
`HRS`/`HOURS` strip can fire again. -/
theorem claim_C10_amended (s : String) (h : timeParsed s = true) :
    normalize_time (normalize_time s) = normalize_time s := by
  obtain ⟨hh, mm, heq⟩ := normTimeL_eq_renderHM_of_timeParsed h
  have h1 : normalize_time s = (⟨renderHM hh mm⟩ : String) :=
    congrArg (fun l => (⟨l⟩ : String)) heq
  rw [h1]
  show (⟨normTimeL (renderHM hh mm)⟩ : String) = _
  rw [normTimeL_renderHM]

/-- Witness for C10 amended at the parsed token `"5.30"`. -/
theorem claim_C10_witness :
    timeParsed "5.30" = true ∧
      normalize_time (normalize_time "5.30") = normalize_time "5.30" :=
  ⟨by decide, claim_C10_amended "5.30" (by decide)⟩

end PortOps
